import Mathlib

/-
Shallow embedding of the core scripts of the modrinth-auto-ai-translator
repository:

  * scripts/translate-text.js  (class AITranslator): persistent translation
    cache keyed by text|model|targetLanguage|context, batch response parsing,
    individual retry fallback, mapping generation;
  * scripts/replace-text.js    (class TextReplacer, current variant with
    validation): mapping validation, per-key literal global replacement with
    occurrence counting;
  * scripts/extract-text.js    (class TextExtractor) and the VueSFCExtractor
    variant: directory scanning with excluded directories and config-file
    skip list, text collection, deduplication and sorting.

JavaScript strings are modelled as Lean String / List Char; JS Maps and JSON
objects as association lists (List (String x _)) with JS insertion-order
update semantics; the wall clock (new Date().toISOString()) is passed in as
an explicit string parameter; provider responses arrive as explicit inputs.
-/

set_option maxRecDepth 4096

/-! ### Shared string helpers (JS String.prototype.trim and quote stripping) -/

/-- Whitespace class used by JS `trim` and `\s` (ASCII fragment). -/
def jsWS (c : Char) : Bool :=
  c == ' ' || c == '\t' || c == '\r' || c == '\n' ||
  c == Char.ofNat 11 || c == Char.ofNat 12

/-- JS `String.prototype.trim` on character lists: drop leading and trailing
whitespace. -/
def trimL (cs : List Char) : List Char :=
  (cs.dropWhile jsWS).rdropWhile jsWS

/-- JS `String.prototype.trim` on strings. -/
def trimS (s : String) : String :=
  String.mk (trimL s.toList)

/-- A quote character as matched by the regex class of double or single
quote used in `translate-text.js` (Char.ofNat 39 is the single quote). -/
def isQuoteCh (c : Char) : Bool :=
  c == '"' || c == Char.ofNat 39

/-- Remove one trailing quote character if present (second alternative of
the regex replacing a leading or trailing quote globally). -/
def dropLastQuote (cs : List Char) : List Char :=
  match cs.getLast? with
  | some c => if isQuoteCh c then cs.dropLast else cs
  | none => cs

/-- The JS replacement of the anchored quote alternation with the global
flag: removes at most one leading and at most one trailing quote. -/
def stripQuoteL (cs : List Char) : List Char :=
  dropLastQuote
    (match cs with
     | c :: rest => if isQuoteCh c then rest else cs
     | [] => [])

/-! ### AITranslator: cache data model (translate-text.js) -/

/-- A value of the on-disk `translation-cache.json` cache map, as written by
AITranslator.setCachedTranslation. -/
structure CacheEntry where
  original : String
  translated : String
  context : String
  model : String
  targetLanguage : String
  createdAt : String
deriving DecidableEq

/-- The run configuration fields of AITranslator relevant to caching. -/
structure TranslatorConfig where
  model : String
  targetLanguage : String
deriving DecidableEq

/-- AITranslator.getCacheKey: text, model, target language and context
joined with a pipe. -/
def getCacheKey (cfg : TranslatorConfig) (text ctx : String) : String :=
  text ++ "|" ++ cfg.model ++ "|" ++ cfg.targetLanguage ++ "|" ++ ctx

/-- Lookup in the in-memory cache Map (this.cache.get(key)). -/
def cacheLookup (cache : List (String × CacheEntry)) (key : String) :
    Option CacheEntry :=
  (cache.find? (fun kv => kv.1 == key)).map Prod.snd

/-- AITranslator.loadCache: only entries whose model and targetLanguage are
string-equal to the current configuration are admitted into the in-memory
cache; the rest are skipped. -/
def loadCache (cfg : TranslatorConfig) (disk : List (String × CacheEntry)) :
    List (String × CacheEntry) :=
  disk.filter
    (fun kv => kv.2.model == cfg.model && kv.2.targetLanguage == cfg.targetLanguage)

/-- AITranslator.getCachedTranslation: returns the cached translation only
when an entry is found under the composite key and its translated field is
truthy (a non-empty string); otherwise null. -/
def getCachedTranslation (cache : List (String × CacheEntry))
    (cfg : TranslatorConfig) (text ctx : String) : Option String :=
  match cacheLookup cache (getCacheKey cfg text ctx) with
  | some e => if e.translated ≠ "" then some e.translated else none
  | none => none

/-- An element of the extracted-text.json texts array as consumed by the
translator. -/
structure ExtractedItem where
  text : String
  context : String
  file : String
deriving DecidableEq

/-- AITranslator.separateCachedTexts: partition the extracted list into
cache hits and misses by getCachedTranslation. -/
def separateCachedTexts (cache : List (String × CacheEntry))
    (cfg : TranslatorConfig) (texts : List ExtractedItem) :
    List ExtractedItem × List ExtractedItem :=
  (texts.filter (fun t => (getCachedTranslation cache cfg t.text t.context).isSome),
   texts.filter (fun t => (getCachedTranslation cache cfg t.text t.context).isNone))

/-! ### C1: cache isolation across model / language -/

/-- C1: an on-disk cache entry whose model or targetLanguage differs from
the current run configuration is never admitted by load-time filtering and
is never returned by a cache lookup, for any text and context. -/
theorem c1_cache_isolation (cfg : TranslatorConfig)
    (disk : List (String × CacheEntry)) (k : String) (e : CacheEntry)
    (hmem : (k, e) ∈ disk)
    (hdiff : e.model ≠ cfg.model ∨ e.targetLanguage ≠ cfg.targetLanguage)
    (text ctx : String) :
    (∀ kv ∈ loadCache cfg disk,
        kv.2.model = cfg.model ∧ kv.2.targetLanguage = cfg.targetLanguage) ∧
    cacheLookup (loadCache cfg disk) (getCacheKey cfg text ctx) ≠ some e := by
  have hfilt : ∀ kv ∈ loadCache cfg disk,
      kv.2.model = cfg.model ∧ kv.2.targetLanguage = cfg.targetLanguage := by
    intro kv hkv
    have := List.mem_filter.mp hkv
    simpa using this.2
  refine ⟨hfilt, ?_⟩
  intro hlook
  unfold cacheLookup at hlook
  cases hfind : List.find?
      (fun kv => kv.1 == getCacheKey cfg text ctx) (loadCache cfg disk) with
  | none => rw [hfind] at hlook; simp at hlook
  | some kv =>
    rw [hfind] at hlook
    simp only [Option.map] at hlook
    rw [Option.some.injEq] at hlook
    have hkvmem : kv ∈ loadCache cfg disk := List.mem_of_find?_eq_some hfind
    have := hfilt kv hkvmem
    rw [hlook] at this
    rcases hdiff with h | h
    · exact h this.1
    · exact h this.2

/-- Witness for C1 at a concrete disk cache: an entry saved for model
gpt-4o-mini is never a hit when the active model is gpt-4. -/
theorem c1_cache_isolation_witness :
    (("Save|gpt-4o-mini|zh|", (⟨"Save", "S", "", "gpt-4o-mini", "zh", "t"⟩ : CacheEntry)) ∈
      [("Save|gpt-4o-mini|zh|", (⟨"Save", "S", "", "gpt-4o-mini", "zh", "t"⟩ : CacheEntry))]) ∧
    ((⟨"Save", "S", "", "gpt-4o-mini", "zh", "t"⟩ : CacheEntry).model ≠ "gpt-4" ∨
      (⟨"Save", "S", "", "gpt-4o-mini", "zh", "t"⟩ : CacheEntry).targetLanguage ≠ "zh") ∧
    cacheLookup
      (loadCache ⟨"gpt-4", "zh"⟩
        [("Save|gpt-4o-mini|zh|", (⟨"Save", "S", "", "gpt-4o-mini", "zh", "t"⟩ : CacheEntry))])
      (getCacheKey ⟨"gpt-4", "zh"⟩ "Save" "") ≠
      some (⟨"Save", "S", "", "gpt-4o-mini", "zh", "t"⟩ : CacheEntry) :=
  ⟨by decide, by decide,
    (c1_cache_isolation ⟨"gpt-4", "zh"⟩
      [("Save|gpt-4o-mini|zh|", (⟨"Save", "S", "", "gpt-4o-mini", "zh", "t"⟩ : CacheEntry))]
      "Save|gpt-4o-mini|zh|" (⟨"Save", "S", "", "gpt-4o-mini", "zh", "t"⟩ : CacheEntry)
      (by decide) (by decide) "Save" "").2⟩

/-! ### C10: entries with an empty translated field are never served -/

/-- C10: a cache entry whose translated field is the empty string is not a
cache hit (getCachedTranslation returns none for it), and an extracted item
with the matching text and context lands in the uncached partition. -/
theorem c10_empty_translation_not_served (cache : List (String × CacheEntry))
    (cfg : TranslatorConfig) (text ctx : String) (e : CacheEntry)
    (hl : cacheLookup cache (getCacheKey cfg text ctx) = some e)
    (he : e.translated = "") :
    getCachedTranslation cache cfg text ctx = none ∧
    ∀ (texts : List ExtractedItem) (item : ExtractedItem), item ∈ texts →
      item.text = text → item.context = ctx →
      item ∈ (separateCachedTexts cache cfg texts).2 := by
  have h1 : getCachedTranslation cache cfg text ctx = none := by
    unfold getCachedTranslation
    rw [hl]
    simp [he]
  refine ⟨h1, ?_⟩
  intro texts item hmem htext hctx
  unfold separateCachedTexts
  refine List.mem_filter.mpr ⟨hmem, ?_⟩
  rw [htext, hctx, h1]
  rfl

/-- Witness for C10: a concrete cache entry with an empty translation is
skipped and its text is re-sent (lands in the uncached list). -/
theorem c10_empty_translation_not_served_witness :
    (cacheLookup
        [("Save|m|L|c", (⟨"Save", "", "c", "m", "L", "t"⟩ : CacheEntry))]
        (getCacheKey ⟨"m", "L"⟩ "Save" "c") =
      some (⟨"Save", "", "c", "m", "L", "t"⟩ : CacheEntry)) ∧
    ((⟨"Save", "", "c", "m", "L", "t"⟩ : CacheEntry).translated = "") ∧
    getCachedTranslation
        [("Save|m|L|c", (⟨"Save", "", "c", "m", "L", "t"⟩ : CacheEntry))]
        ⟨"m", "L"⟩ "Save" "c" = none ∧
    (⟨"Save", "c", "a.vue"⟩ : ExtractedItem) ∈
      (separateCachedTexts
        [("Save|m|L|c", (⟨"Save", "", "c", "m", "L", "t"⟩ : CacheEntry))]
        ⟨"m", "L"⟩ [⟨"Save", "c", "a.vue"⟩]).2 := by
  have h := c10_empty_translation_not_served
    [("Save|m|L|c", (⟨"Save", "", "c", "m", "L", "t"⟩ : CacheEntry))]
    ⟨"m", "L"⟩ "Save" "c" (⟨"Save", "", "c", "m", "L", "t"⟩ : CacheEntry)
    (by decide) (by decide)
  exact ⟨by decide, by decide, h.1,
    h.2 [⟨"Save", "c", "a.vue"⟩] ⟨"Save", "c", "a.vue"⟩ (by decide) rfl rfl⟩

/-! ### C2: the mapping excludes unchanged translations -/

/-- A per-string result of a translation run, as stored in
AITranslator.translations and written to translations.json. -/
structure TranslationResult where
  original : String
  translated : String
  context : String
  fromCache : Bool
  error : Bool
deriving DecidableEq

/-- AITranslator.saveTranslations, mapping part: keep a key exactly when its
translated value differs from its original value. -/
def buildTranslationMapping (ts : List (String × TranslationResult)) :
    List (String × String) :=
  (ts.filter (fun kv => kv.2.translated != kv.2.original)).map
    (fun kv => (kv.1, kv.2.translated))

/-- In a list whose keys are nodup, two pairs with the same key are the same
pair. -/
theorem keys_nodup_value_unique {β : Type} (l : List (String × β))
    (h : (l.map Prod.fst).Nodup) {k : String} {a b : β}
    (ha : (k, a) ∈ l) (hb : (k, b) ∈ l) : a = b := by
  induction l with
  | nil => cases ha
  | cons p rest ih =>
    rw [List.map_cons, List.nodup_cons] at h
    rcases List.mem_cons.mp ha with ha1 | ha1 <;>
      rcases List.mem_cons.mp hb with hb1 | hb1
    · rw [← ha1] at hb1
      exact ((Prod.mk.injEq _ _ _ _).mp hb1).2.symm
    · exfalso
      apply h.1
      have : k = p.1 := by rw [← ha1]
      rw [this] at hb1
      exact List.mem_map.mpr ⟨(p.1, b), hb1, rfl⟩
    · exfalso
      apply h.1
      have : k = p.1 := by rw [← hb1]
      rw [this] at ha1
      exact List.mem_map.mpr ⟨(p.1, a), ha1, rfl⟩
    · exact ih h.2 ha1 hb1

/-- C2: a key of the run's translation map appears in the derived
translation-mapping exactly when its translated value differs from its
original value. -/
theorem c2_mapping_exclusion (ts : List (String × TranslationResult))
    (hnd : (ts.map Prod.fst).Nodup) (k : String) (r : TranslationResult)
    (hmem : (k, r) ∈ ts) :
    k ∈ (buildTranslationMapping ts).map Prod.fst ↔
      r.translated ≠ r.original := by
  constructor
  · intro hk
    rcases List.mem_map.mp hk with ⟨q, hq, hqk⟩
    rcases List.mem_map.mp hq with ⟨kv, hkv, hkvq⟩
    have hkvf := List.mem_filter.mp hkv
    have hkey : kv.1 = k := by
      rw [← hqk, ← hkvq]
    have hkvmem : (k, kv.2) ∈ ts := by
      rw [← hkey]
      exact hkvf.1
    have := keys_nodup_value_unique ts hnd hkvmem hmem
    rw [← this]
    simpa using hkvf.2
  · intro hne
    refine List.mem_map.mpr ⟨(k, r.translated), ?_, rfl⟩
    refine List.mem_map.mpr ⟨(k, r), ?_, rfl⟩
    exact List.mem_filter.mpr ⟨hmem, by simpa using hne⟩

/-- Witness for C2 at a concrete run: an unchanged result is absent from
the mapping and a changed one is present. -/
theorem c2_mapping_exclusion_witness :
    (([("Save", (⟨"Save", "S2", "c", false, false⟩ : TranslationResult)),
       ("npm", (⟨"npm", "npm", "c", false, false⟩ : TranslationResult))].map
        Prod.fst).Nodup) ∧
    (("npm", (⟨"npm", "npm", "c", false, false⟩ : TranslationResult)) ∈
      [("Save", (⟨"Save", "S2", "c", false, false⟩ : TranslationResult)),
       ("npm", (⟨"npm", "npm", "c", false, false⟩ : TranslationResult))]) ∧
    ¬ ("npm" ∈ (buildTranslationMapping
      [("Save", (⟨"Save", "S2", "c", false, false⟩ : TranslationResult)),
       ("npm", (⟨"npm", "npm", "c", false, false⟩ : TranslationResult))]).map Prod.fst) := by
  refine ⟨by decide, by decide, ?_⟩
  intro hk
  exact ((c2_mapping_exclusion
    [("Save", (⟨"Save", "S2", "c", false, false⟩ : TranslationResult)),
     ("npm", (⟨"npm", "npm", "c", false, false⟩ : TranslationResult))]
    (by decide) "npm" (⟨"npm", "npm", "c", false, false⟩ : TranslationResult)
    (by decide)).mp hk) rfl

/-! ### C5: saveCache merges additively -/

/-- JS object / Map insertion-order update: assigning to an existing key
replaces its value in place, a new key is appended. -/
def upsert {β : Type} (l : List (String × β)) (k : String) (v : β) :
    List (String × β) :=
  if l.any (fun kv => kv.1 == k) then
    l.map (fun kv => if kv.1 == k then (k, v) else kv)
  else l ++ [(k, v)]

/-- AITranslator.saveCache, merge step: write every in-memory entry over
the cache map re-read from disk. -/
def mergeCache (disk mem : List (String × CacheEntry)) :
    List (String × CacheEntry) :=
  mem.foldl (fun acc kv => upsert acc kv.1 kv.2) disk

/-- The record written to translation-cache.json by AITranslator.saveCache. -/
structure CacheFileData where
  version : String
  lastUpdated : String
  cache : List (String × CacheEntry)
deriving DecidableEq

/-- AITranslator.saveCache: re-read the on-disk file (an unreadable or
absent file contributes an empty map), merge the in-memory entries over it,
and stamp the current time. -/
def saveCache (now : String) (diskFile : Option CacheFileData)
    (mem : List (String × CacheEntry)) : CacheFileData :=
  { version := "1.0"
    lastUpdated := now
    cache := mergeCache (match diskFile with | some f => f.cache | none => []) mem }

/-- The key k is present in l and every pair of l carrying key k has value v. -/
def holdsExactly {β : Type} (l : List (String × β)) (k : String) (v : β) : Prop :=
  (∀ kv ∈ l, kv.1 = k → kv.2 = v) ∧ ∃ kv ∈ l, kv.1 = k

theorem find_assoc_map_upsert {β : Type} (l : List (String × β)) (k : String)
    (v : β) (k' : String) (hne : k' ≠ k) :
    List.find? (fun kv => kv.1 == k')
        (l.map (fun kv => if kv.1 == k then (k, v) else kv)) =
      List.find? (fun kv => kv.1 == k') l := by
  induction l with
  | nil => rfl
  | cons p rest ih =>
    rw [List.map_cons]
    by_cases hp : p.1 = k
    · rw [if_pos (by simpa using hp)]
      have h2 : ¬ ((fun kv : String × β => kv.1 == k') (k, v)) = true := by
        simp only [beq_iff_eq]
        exact fun h => hne h.symm
      have h3 : ¬ ((fun kv : String × β => kv.1 == k') p) = true := by
        simp only [beq_iff_eq]
        rw [hp]
        exact fun h => hne h.symm
      rw [@List.find?_cons_of_neg _ (fun kv => kv.1 == k') (k, v) _ h2,
        @List.find?_cons_of_neg _ (fun kv => kv.1 == k') p rest h3]
      exact ih
    · rw [if_neg (by simpa using hp)]
      by_cases hc : ((fun kv : String × β => kv.1 == k') p) = true
      · rw [@List.find?_cons_of_pos _ (fun kv => kv.1 == k') p _ hc,
          @List.find?_cons_of_pos _ (fun kv => kv.1 == k') p rest hc]
      · rw [@List.find?_cons_of_neg _ (fun kv => kv.1 == k') p _ hc,
          @List.find?_cons_of_neg _ (fun kv => kv.1 == k') p rest hc]
        exact ih

theorem find_assoc_append_singleton {β : Type} (l : List (String × β))
    (k : String) (v : β) (k' : String) (hne : k' ≠ k) :
    List.find? (fun kv => kv.1 == k') (l ++ [(k, v)]) =
      List.find? (fun kv => kv.1 == k') l := by
  induction l with
  | nil =>
    rw [List.nil_append]
    have h2 : ¬ ((fun kv : String × β => kv.1 == k') (k, v)) = true := by
      simp only [beq_iff_eq]
      exact fun h => hne h.symm
    rw [@List.find?_cons_of_neg _ (fun kv => kv.1 == k') (k, v) _ h2]
  | cons p rest ih =>
    rw [List.cons_append]
    by_cases hc : ((fun kv : String × β => kv.1 == k') p) = true
    · rw [@List.find?_cons_of_pos _ (fun kv => kv.1 == k') p _ hc,
        @List.find?_cons_of_pos _ (fun kv => kv.1 == k') p rest hc]
    · rw [@List.find?_cons_of_neg _ (fun kv => kv.1 == k') p _ hc,
        @List.find?_cons_of_neg _ (fun kv => kv.1 == k') p rest hc]
      exact ih

theorem lookup_upsert_ne (l : List (String × CacheEntry)) (k : String)
    (v : CacheEntry) (k' : String) (hne : k' ≠ k) :
    cacheLookup (upsert l k v) k' = cacheLookup l k' := by
  unfold upsert cacheLookup
  split
  · rw [find_assoc_map_upsert l k v k' hne]
  · rw [find_assoc_append_singleton l k v k' hne]

theorem holds_upsert_self {β : Type} (l : List (String × β)) (k : String)
    (v : β) : holdsExactly (upsert l k v) k v := by
  unfold upsert
  split
  · rename_i hany
    constructor
    · intro kv hkv hk
      rcases List.mem_map.mp hkv with ⟨q, hqmem, hq⟩
      by_cases hqk : q.1 = k
      · rw [if_pos (by simpa using hqk)] at hq
        rw [← hq]
      · rw [if_neg (by simpa using hqk)] at hq
        rw [← hq] at hk
        exact absurd hk hqk
    · rcases List.any_eq_true.mp hany with ⟨q, hqmem, hq⟩
      have hqk : (q.1 == k) = true := by simpa using hq
      exact ⟨(k, v), List.mem_map.mpr ⟨q, hqmem, by rw [if_pos hqk]⟩, rfl⟩
  · rename_i hany
    constructor
    · intro kv hkv hk
      rcases List.mem_append.mp hkv with h | h
      · exact absurd (List.any_eq_true.mpr ⟨kv, h, by simpa using hk⟩) hany
      · rw [List.mem_singleton] at h
        rw [h]
    · exact ⟨(k, v), List.mem_append.mpr (Or.inr (List.mem_singleton.mpr rfl)),
        rfl⟩

theorem holds_upsert_other {β : Type} (l : List (String × β)) (k k' : String)
    (v v' : β) (hne : k' ≠ k) (h : holdsExactly l k v) :
    holdsExactly (upsert l k' v') k v := by
  unfold upsert
  split
  · constructor
    · intro kv hkv hk
      rcases List.mem_map.mp hkv with ⟨q, hqmem, hq⟩
      by_cases hqk : q.1 = k'
      · rw [if_pos (by simpa using hqk)] at hq
        rw [← hq] at hk
        exact absurd hk hne
      · rw [if_neg (by simpa using hqk)] at hq
        rw [← hq] at hk ⊢
        exact h.1 q hqmem hk
    · rcases h.2 with ⟨q, hqmem, hqk⟩
      refine ⟨q, List.mem_map.mpr ⟨q, hqmem, ?_⟩, hqk⟩
      have hf : ¬ (q.1 == k') = true := by
        simp only [beq_iff_eq]
        rw [hqk]
        exact fun hh => hne hh.symm
      rw [if_neg hf]
  · constructor
    · intro kv hkv hk
      rcases List.mem_append.mp hkv with hmem | hmem
      · exact h.1 kv hmem hk
      · rw [List.mem_singleton] at hmem
        rw [hmem] at hk
        exact absurd hk hne
    · rcases h.2 with ⟨q, hqmem, hqk⟩
      exact ⟨q, List.mem_append.mpr (Or.inl hqmem), hqk⟩

theorem holds_lookup (l : List (String × CacheEntry)) (k : String)
    (v : CacheEntry) (h : holdsExactly l k v) : cacheLookup l k = some v := by
  induction l with
  | nil => rcases h.2 with ⟨q, hq, _⟩; cases hq
  | cons p rest ih =>
    unfold cacheLookup
    rw [List.find?_cons]
    by_cases hp : p.1 = k
    · have hb : (p.1 == k) = true := by simpa using hp
      rw [hb]
      have := h.1 p (List.mem_cons_self _ _) hp
      simp [this]
    · have hb : (p.1 == k) = false := by simpa using hp
      rw [hb]
      apply ih
      constructor
      · intro kv hkv hk
        exact h.1 kv (List.mem_cons_of_mem _ hkv) hk
      · rcases h.2 with ⟨q, hqmem, hqk⟩
        rcases List.mem_cons.mp hqmem with hq | hq
        · exact absurd (hq ▸ hqk) hp
        · exact ⟨q, hq, hqk⟩

theorem holds_upsert_eq {β : Type} (l : List (String × β)) (k : String)
    (v : β) (h : holdsExactly l k v) : upsert l k v = l := by
  unfold upsert
  rcases h.2 with ⟨q, hqmem, hqk⟩
  have hany : l.any (fun kv => kv.1 == k) = true :=
    List.any_eq_true.mpr ⟨q, hqmem, by simpa using hqk⟩
  rw [if_pos hany]
  have hpt : ∀ kv ∈ l, (if kv.1 == k then (k, v) else kv) = kv := by
    intro kv hkv
    by_cases hk : kv.1 = k
    · rw [if_pos (by simpa using hk)]
      have hv := h.1 kv hkv hk
      rw [← hk, ← hv]
    · rw [if_neg (by simpa using hk)]
  calc l.map (fun kv => if kv.1 == k then (k, v) else kv)
      = l.map (fun kv => kv) := List.map_congr_left hpt
    _ = l := List.map_id' l

theorem holds_mergeCache_not_mem (mem : List (String × CacheEntry))
    (k : String) (v : CacheEntry) (hk : k ∉ mem.map Prod.fst) :
    ∀ l, holdsExactly l k v → holdsExactly (mergeCache l mem) k v := by
  induction mem with
  | nil => intro l h; exact h
  | cons p rest ih =>
    intro l h
    have hk1 : k ∉ rest.map Prod.fst := fun hmem => hk (by simp [hmem])
    have hk2 : p.1 ≠ k := by
      intro hh
      exact hk (by simp [← hh])
    exact ih hk1 _ (holds_upsert_other l k p.1 v p.2 hk2 h)

theorem lookup_mergeCache_not_mem (mem : List (String × CacheEntry))
    (k : String) (hk : k ∉ mem.map Prod.fst) :
    ∀ l, cacheLookup (mergeCache l mem) k = cacheLookup l k := by
  induction mem with
  | nil => intro l; rfl
  | cons p rest ih =>
    intro l
    have hk1 : k ∉ rest.map Prod.fst := fun hmem => hk (by simp [hmem])
    have hk2 : k ≠ p.1 := by
      intro hh
      exact hk (by simp [hh])
    calc cacheLookup (mergeCache (upsert l p.1 p.2) rest) k
        = cacheLookup (upsert l p.1 p.2) k := ih hk1 _
      _ = cacheLookup l k := lookup_upsert_ne l p.1 p.2 k hk2

theorem holds_mergeCache_mem (mem : List (String × CacheEntry))
    (hnd : (mem.map Prod.fst).Nodup) (k : String) (v : CacheEntry)
    (hmem : (k, v) ∈ mem) :
    ∀ l, holdsExactly (mergeCache l mem) k v := by
  induction mem with
  | nil => cases hmem
  | cons p rest ih =>
    intro l
    rw [List.map_cons, List.nodup_cons] at hnd
    rcases List.mem_cons.mp hmem with hh | hh
    · have hp1 : p.1 = k := by rw [← hh]
      have hp2 : p.2 = v := by rw [← hh]
      have hkrest : k ∉ rest.map Prod.fst := by
        rw [← hp1]
        exact hnd.1
      show holdsExactly (mergeCache (upsert l p.1 p.2) rest) k v
      rw [hp1, hp2]
      exact holds_mergeCache_not_mem rest k v hkrest _
        (holds_upsert_self l k v)
    · exact ih hnd.2 hh _

theorem mergeCache_of_holds (mem : List (String × CacheEntry)) :
    ∀ l, (∀ kv ∈ mem, holdsExactly l kv.1 kv.2) → mergeCache l mem = l := by
  induction mem with
  | nil => intro l _; rfl
  | cons p rest ih =>
    intro l h
    show mergeCache (upsert l p.1 p.2) rest = l
    rw [holds_upsert_eq l p.1 p.2 (h p (List.mem_cons_self _ _))]
    exact ih l (fun kv hkv => h kv (List.mem_cons_of_mem _ hkv))

/-- C5 counterexample to literal file-content idempotence: saveCache stamps
lastUpdated with the current time, so saving twice at different times yields
different file contents even with identical cache data. -/
theorem c5_counterexample :
    saveCache "2024-12-20T00:00:01Z"
        (some (saveCache "2024-12-20T00:00:00Z" none
          [("Save|m|L|", (⟨"Save", "S", "", "m", "L", "t"⟩ : CacheEntry))]))
        [("Save|m|L|", (⟨"Save", "S", "", "m", "L", "t"⟩ : CacheEntry))] ≠
      saveCache "2024-12-20T00:00:00Z" none
        [("Save|m|L|", (⟨"Save", "S", "", "m", "L", "t"⟩ : CacheEntry))] := by
  decide

/-- C5 amended: the merge is additive (keys absent from memory keep their
on-disk value, in-memory entries win on their own keys) and the cache map
and version are idempotent under repeated saves; only the lastUpdated
timestamp differs between two consecutive saves. -/
theorem c5_save_merge (disk mem : List (String × CacheEntry))
    (hnd : (mem.map Prod.fst).Nodup) :
    (∀ k, k ∉ mem.map Prod.fst →
      cacheLookup (mergeCache disk mem) k = cacheLookup disk k) ∧
    (∀ k v, (k, v) ∈ mem → cacheLookup (mergeCache disk mem) k = some v) ∧
    mergeCache (mergeCache disk mem) mem = mergeCache disk mem ∧
    (∀ now1 now2 df,
      (saveCache now2 (some (saveCache now1 df mem)) mem).cache =
        (saveCache now1 df mem).cache ∧
      (saveCache now2 (some (saveCache now1 df mem)) mem).version =
        (saveCache now1 df mem).version) := by
  have hidem : mergeCache (mergeCache disk mem) mem = mergeCache disk mem :=
    mergeCache_of_holds mem (mergeCache disk mem)
      (fun kv hkv => holds_mergeCache_mem mem hnd kv.1 kv.2 hkv disk)
  refine ⟨?_, ?_, hidem, ?_⟩
  · intro k hk
    exact lookup_mergeCache_not_mem mem k hk disk
  · intro k v hkv
    exact holds_lookup _ k v (holds_mergeCache_mem mem hnd k v hkv disk)
  · intro now1 now2 df
    constructor
    · show mergeCache (mergeCache _ mem) mem = mergeCache _ mem
      exact mergeCache_of_holds mem _
        (fun kv hkv => holds_mergeCache_mem mem hnd kv.1 kv.2 hkv _)
    · rfl

/-- Witness for C5 at a concrete cache: an entry for another model/language
survives the merge, the in-memory entry wins, and the merged map is stable
under a second save. -/
theorem c5_save_merge_witness :
    (([("a|m|L|", (⟨"a", "A", "", "m", "L", "t"⟩ : CacheEntry))].map
        Prod.fst).Nodup) ∧
    cacheLookup
        (mergeCache [("b|n|M|", (⟨"b", "B", "", "n", "M", "t"⟩ : CacheEntry))]
          [("a|m|L|", (⟨"a", "A", "", "m", "L", "t"⟩ : CacheEntry))]) "b|n|M|" =
      cacheLookup [("b|n|M|", (⟨"b", "B", "", "n", "M", "t"⟩ : CacheEntry))]
        "b|n|M|" ∧
    mergeCache
        (mergeCache [("b|n|M|", (⟨"b", "B", "", "n", "M", "t"⟩ : CacheEntry))]
          [("a|m|L|", (⟨"a", "A", "", "m", "L", "t"⟩ : CacheEntry))])
        [("a|m|L|", (⟨"a", "A", "", "m", "L", "t"⟩ : CacheEntry))] =
      mergeCache [("b|n|M|", (⟨"b", "B", "", "n", "M", "t"⟩ : CacheEntry))]
        [("a|m|L|", (⟨"a", "A", "", "m", "L", "t"⟩ : CacheEntry))] := by
  have h := c5_save_merge
    [("b|n|M|", (⟨"b", "B", "", "n", "M", "t"⟩ : CacheEntry))]
    [("a|m|L|", (⟨"a", "A", "", "m", "L", "t"⟩ : CacheEntry))] (by decide)
  exact ⟨by decide, h.1 "b|n|M|" (by decide), h.2.2.1⟩

/-! ### C4: batch response parsing and padding -/

/-- JS String.prototype.split on a newline separator. -/
def splitOnNewline : List Char → List (List Char)
  | [] => [[]]
  | c :: rest =>
    if c = '\n' then [] :: splitOnNewline rest
    else
      match splitOnNewline rest with
      | h :: t => (c :: h) :: t
      | [] => [[c]]

/-- One line of a provider response matched against the anchored pattern of
digits, a dot, optional whitespace and a non-empty remainder; on a match the
captured remainder is trimmed and stripped of surrounding quotes. -/
def parseNumberedLineL (cs : List Char) : Option (List Char) :=
  let ds := cs.takeWhile Char.isDigit
  let rest := cs.dropWhile Char.isDigit
  if ds.isEmpty then none
  else
    match rest with
    | '.' :: rest2 =>
        if rest2.isEmpty then none else some (stripQuoteL (trimL rest2))
    | _ => none

/-- One element of a translation batch (text plus context). -/
structure BatchItem where
  text : String
  context : String
deriving DecidableEq

/-- The ordinal-labeled lines extracted from a provider response by
AITranslator.parseBatchResponse: split on newlines, keep lines that are
non-blank after trimming, keep the ones matching the numbered pattern. -/
def responseLabeledLines (response : String) : List (List Char) :=
  ((splitOnNewline response.toList).filter
    (fun l => !(trimL l).isEmpty)).filterMap parseNumberedLineL

/-- AITranslator.parseBatchResponse: the parsed lines, padded at the tail
with the original texts of the still-unfilled batch positions. -/
def parseBatchResponse (response : String) (batch : List BatchItem) :
    List String :=
  let ts := (responseLabeledLines response).map String.mk
  ts ++ (batch.drop ts.length).map BatchItem.text

/-- AITranslator.translateBatch, success path: each batch position takes the
parsed translation at its index (falling back to the original text when that
value is falsy) and is recorded with fromCache false and no error. -/
def translateBatchResults (response : String) (batch : List BatchItem) :
    List TranslationResult :=
  let ts := parseBatchResponse response batch
  batch.enum.map (fun p =>
    let t := ts.getD p.1 p.2.text
    { original := p.2.text
      translated := if t = "" then p.2.text else t
      context := p.2.context
      fromCache := false
      error := false })

/-- C4 counterexample to the fixed-length claim: a response carrying more
ordinal-labeled lines than the batch has items yields a longer list than the
batch, not a list of exactly the batch size. -/
theorem c4_counterexample :
    (parseBatchResponse "1. a\n2. b" [(⟨"x", "c"⟩ : BatchItem)]).length = 2 ∧
    (parseBatchResponse "1. a\n2. b" [(⟨"x", "c"⟩ : BatchItem)]).length ≠
      [(⟨"x", "c"⟩ : BatchItem)].length := by decide

theorem list_map_pair_const {α : Type} (l : List α) (x : Bool × Bool) :
    l.map (fun _ => x) = List.replicate l.length x := List.map_const' l x

/-- C4 amended: parseBatchResponse returns max(n, m) translations for a
batch of n and m labeled lines (exactly n whenever m is at most n); position
i holds the i-th labeled line (quotes stripped) when i is below m and the
i-th original text otherwise; and every batch result of the success path
carries fromCache false and no error. -/
theorem c4_batch_padding (response : String) (batch : List BatchItem) :
    (parseBatchResponse response batch).length =
      max batch.length (responseLabeledLines response).length ∧
    (∀ i : Nat,
      (parseBatchResponse response batch)[i]? =
        if i < (responseLabeledLines response).length then
          ((responseLabeledLines response).map String.mk)[i]?
        else (batch.map BatchItem.text)[i]?) ∧
    (translateBatchResults response batch).map (fun r => (r.fromCache, r.error)) =
      List.replicate batch.length (false, false) := by
  refine ⟨?_, ?_, ?_⟩
  · simp only [parseBatchResponse, List.length_append, List.length_map,
      List.length_drop]
    omega
  · intro i
    simp only [parseBatchResponse]
    rw [List.getElem?_append]
    rw [List.length_map]
    by_cases hi : i < (responseLabeledLines response).length
    · rw [if_pos hi, if_pos hi]
    · rw [if_neg hi, if_neg hi]
      rw [List.getElem?_map BatchItem.text
        (List.drop (responseLabeledLines response).length batch)
        (i - (responseLabeledLines response).length)]
      rw [List.getElem?_drop batch (responseLabeledLines response).length
        (i - (responseLabeledLines response).length)]
      rw [List.getElem?_map BatchItem.text batch i]
      have heq : (responseLabeledLines response).length +
          (i - (responseLabeledLines response).length) = i := by omega
      rw [heq]
  · unfold translateBatchResults
    rw [List.map_map]
    have : ((fun r : TranslationResult => (r.fromCache, r.error)) ∘
        (fun p : Nat × BatchItem =>
          let t := (parseBatchResponse response batch).getD p.1 p.2.text
          ({ original := p.2.text
             translated := if t = "" then p.2.text else t
             context := p.2.context
             fromCache := false
             error := false } : TranslationResult))) =
        (fun _ : Nat × BatchItem => ((false : Bool), (false : Bool))) := by
      funext p
      rfl
    rw [this, list_map_pair_const, List.enum_length]

/-! ### C6: the individual retry path can store an empty translation -/

/-- AITranslator.translateSingle, response post-processing: trim, then strip
one surrounding quote on each side. -/
def translateSingleClean (response : String) : String :=
  String.mk (stripQuoteL (trimL response.toList))

/-- AITranslator.translateBatchIndividually, one item: use the cache when it
hits; otherwise on a successful provider response store its cleaned text
verbatim (no fallback applied); on a failed request store the original text
with the error flag. -/
def translateIndividualItem (cache : List (String × CacheEntry))
    (cfg : TranslatorConfig) (item : ExtractedItem)
    (providerResponse : Option String) : TranslationResult :=
  match getCachedTranslation cache cfg item.text item.context with
  | some tr =>
    { original := item.text, translated := tr, context := item.context,
      fromCache := true, error := false }
  | none =>
    match providerResponse with
    | some resp =>
      { original := item.text, translated := translateSingleClean resp,
        context := item.context, fromCache := false, error := false }
    | none =>
      { original := item.text, translated := item.text,
        context := item.context, fromCache := false, error := true }

/-- C6: on the individual retry path a provider response consisting of two
double-quote characters is cleaned to the empty string and stored as the
translated value with no error flag, violating the invariant that
translated is never empty. -/
theorem c6_individual_path_stores_empty_translation :
    (translateIndividualItem [] ⟨"gpt-4o-mini", "zh"⟩
      ⟨"Hello", "template", "App.vue"⟩ (some "\"\"")).translated = "" ∧
    (translateIndividualItem [] ⟨"gpt-4o-mini", "zh"⟩
      ⟨"Hello", "template", "App.vue"⟩ (some "\"\"")).fromCache = false ∧
    (translateIndividualItem [] ⟨"gpt-4o-mini", "zh"⟩
      ⟨"Hello", "template", "App.vue"⟩ (some "\"\"")).error = false ∧
    (translateIndividualItem [] ⟨"gpt-4o-mini", "zh"⟩
      ⟨"Hello", "template", "App.vue"⟩ (some "\"\"")).original ≠ "" := by
  decide

/-! ### C7: the config-file skip aborts the whole directory scan -/

mutual
/-- A directory tree entry as seen by fs.readdirSync with file types. -/
inductive FSEntry where
  | file (name : String)
  | dir (name : String) (children : FSList)
/-- A directory listing, in readdir order. -/
inductive FSList where
  | nil
  | cons (e : FSEntry) (rest : FSList)
end

/-- JS String.prototype.toLowerCase on the ASCII range. -/
def toLowerStr (s : String) : String :=
  String.mk (s.toList.map Char.toLower)

/-- Directory names excluded from every recursive walk. -/
def excludedDirNames : List String :=
  ["node_modules", ".git", "dist", "build", ".nuxt", ".next"]

/-- The config filenames skipped by both extractor variants. -/
def configSkipFiles : List String :=
  ["nuxt.config.ts", "nuxt.config.js",
   "vite.config.ts", "vite.config.js",
   "webpack.config.js", "webpack.config.ts",
   "rollup.config.js", "rollup.config.ts",
   "tailwind.config.js", "tailwind.config.ts",
   "tsconfig.json", "package.json",
   "eslint.config.js", "eslint.config.ts"]

/-- Extensions of component and script files handled by the pipeline. -/
def sourceExts : List String := [".vue", ".js", ".ts", ".jsx", ".tsx"]

/-- The suffix of a character list starting at its last dot. -/
def lastExt : List Char → List Char
  | [] => []
  | '.' :: rest =>
    let r := lastExt rest
    if r.isEmpty then '.' :: rest else r
  | _ :: rest => lastExt rest

/-- path.extname followed by toLowerCase: the extension of a basename (a
leading dot alone does not start an extension). -/
def extnameLower (name : String) : String :=
  match name.toList with
  | [] => ""
  | _ :: rest => toLowerStr (String.mk (lastExt rest))

/-- TextExtractor.scanDirectory of extract-text.js: on a config filename the
function body executes a return statement inside the for loop, ending the
scan of the remaining entries of the same directory. Returns the processed
file names. -/
def scanDirectoryTE : FSList → List String
  | .nil => []
  | .cons (FSEntry.dir n children) rest =>
    (if excludedDirNames.contains n then [] else scanDirectoryTE children) ++
      scanDirectoryTE rest
  | .cons (FSEntry.file n) rest =>
    if configSkipFiles.contains (toLowerStr n) then []
    else
      (if sourceExts.contains (extnameLower n) then [n] else []) ++
        scanDirectoryTE rest

/-- VueSFCExtractor.scanDirectory: identical walk except that a config
filename is skipped with continue, leaving the rest of the directory
unaffected. -/
def scanDirectoryVue : FSList → List String
  | .nil => []
  | .cons (FSEntry.dir n children) rest =>
    (if excludedDirNames.contains n then [] else scanDirectoryVue children) ++
      scanDirectoryVue rest
  | .cons (FSEntry.file n) rest =>
    if configSkipFiles.contains (toLowerStr n) then scanDirectoryVue rest
    else
      (if sourceExts.contains (extnameLower n) then [n] else []) ++
        scanDirectoryVue rest

/-- C7: in a directory listing a config filename before a component file,
the TextExtractor walk processes nothing after the config file (the whole
directory is cut short), while the VueSFCExtractor walk skips only the
config file itself; other directories are unaffected. -/
theorem c7_config_skip_aborts_directory :
    scanDirectoryTE
      (.cons (FSEntry.file "package.json")
        (.cons (FSEntry.file "App.vue") .nil)) = [] ∧
    scanDirectoryVue
      (.cons (FSEntry.file "package.json")
        (.cons (FSEntry.file "App.vue") .nil)) = ["App.vue"] ∧
    scanDirectoryTE
      (.cons
        (FSEntry.dir "src"
          (.cons (FSEntry.file "package.json")
            (.cons (FSEntry.file "App.vue") .nil)))
        (.cons (FSEntry.file "Other.vue") .nil)) = ["Other.vue"] := by
  decide

/-! ### C9: mapping validation in the replacer -/

/-- TextReplacer.loadTranslationMapping, per-entry validation: both sides
must be truthy strings that are non-empty after trimming and must differ
from each other (compared before trimming). -/
def validMappingPair (kv : String × String) : Bool :=
  kv.1 != "" && kv.2 != "" &&
  trimS kv.1 != "" && trimS kv.2 != "" &&
  kv.1 != kv.2

/-- One validation-fold step of loadTranslationMapping: a valid entry is
stored trimmed under Map.set semantics and counted; an invalid one is
dropped silently. -/
def loadMappingStep (st : List (String × String) × Nat)
    (kv : String × String) : List (String × String) × Nat :=
  if validMappingPair kv then
    (upsert st.1 (trimS kv.1) (trimS kv.2), st.2 + 1)
  else st

/-- TextReplacer.loadTranslationMapping: fold the raw mapping object through
validation, returning the replacements Map and the validMappings counter. -/
def loadTranslationMapping (mappingData : List (String × String)) :
    List (String × String) × Nat :=
  mappingData.foldl loadMappingStep ([], 0)

theorem upsert_mem_provenance {β : Type} (l : List (String × β)) (k : String)
    (v : β) (kv : String × β) (h : kv ∈ upsert l k v) :
    kv ∈ l ∨ kv = (k, v) := by
  unfold upsert at h
  split at h
  · rcases List.mem_map.mp h with ⟨q, hqmem, hq⟩
    by_cases hqk : q.1 = k
    · rw [if_pos (by simpa using hqk)] at hq
      exact Or.inr hq.symm
    · rw [if_neg (by simpa using hqk)] at hq
      exact Or.inl (hq ▸ hqmem)
  · rcases List.mem_append.mp h with hmem | hmem
    · exact Or.inl hmem
    · exact Or.inr (List.mem_singleton.mp hmem)

theorem upsert_key_mem {β : Type} (l : List (String × β)) (k : String)
    (v : β) : k ∈ (upsert l k v).map Prod.fst := by
  unfold upsert
  split
  · rename_i hany
    rcases List.any_eq_true.mp hany with ⟨q, hqmem, hq⟩
    exact List.mem_map.mpr
      ⟨(k, v), List.mem_map.mpr ⟨q, hqmem, by rw [if_pos hq]⟩, rfl⟩
  · exact List.mem_map.mpr
      ⟨(k, v), List.mem_append.mpr (Or.inr (List.mem_singleton.mpr rfl)), rfl⟩

theorem upsert_keys_mono {β : Type} (l : List (String × β)) (k k' : String)
    (v : β) (h : k' ∈ l.map Prod.fst) : k' ∈ (upsert l k v).map Prod.fst := by
  by_cases hk : k' = k
  · rw [hk]; exact upsert_key_mem l k v
  · rcases List.mem_map.mp h with ⟨q, hqmem, hqk⟩
    unfold upsert
    split
    · by_cases hq1 : q.1 = k
      · exact absurd (hqk ▸ hq1) hk
      · exact List.mem_map.mpr
          ⟨q, List.mem_map.mpr ⟨q, hqmem, by rw [if_neg (by simpa using hq1)]⟩,
            hqk⟩
    · exact List.mem_map.mpr ⟨q, List.mem_append.mpr (Or.inl hqmem), hqk⟩

theorem loadMapping_fold_spec (m : List (String × String)) :
    ∀ st : List (String × String) × Nat,
      (m.foldl loadMappingStep st).2 = st.2 + (m.filter validMappingPair).length ∧
      (∀ kv ∈ (m.foldl loadMappingStep st).1,
        kv ∈ st.1 ∨ ∃ p ∈ m, validMappingPair p = true ∧
          kv = (trimS p.1, trimS p.2)) ∧
      (∀ p ∈ m, validMappingPair p = true →
        trimS p.1 ∈ ((m.foldl loadMappingStep st).1.map Prod.fst)) ∧
      (∀ k, k ∈ st.1.map Prod.fst →
        k ∈ ((m.foldl loadMappingStep st).1.map Prod.fst)) := by
  induction m with
  | nil =>
    intro st
    exact ⟨rfl, fun kv hkv => Or.inl hkv, fun p hp => absurd hp (by simp),
      fun k hk => hk⟩
  | cons q rest ih =>
    intro st
    rw [List.foldl_cons]
    by_cases hq : validMappingPair q = true
    · have hstep : loadMappingStep st q =
          (upsert st.1 (trimS q.1) (trimS q.2), st.2 + 1) := by
        unfold loadMappingStep
        rw [if_pos hq]
      rw [hstep]
      rcases ih (upsert st.1 (trimS q.1) (trimS q.2), st.2 + 1) with
        ⟨ih1, ih2, ih3, ih4⟩
      refine ⟨?_, ?_, ?_, ?_⟩
      · rw [ih1]
        simp only [List.filter_cons, hq, if_true, List.length_cons]
        omega
      · intro kv hkv
        rcases ih2 kv hkv with hin | ⟨p, hpmem, hpv, hkvp⟩
        · rcases upsert_mem_provenance st.1 (trimS q.1) (trimS q.2) kv hin with
            hin2 | hin2
          · exact Or.inl hin2
          · exact Or.inr ⟨q, List.mem_cons_self _ _, hq, hin2⟩
        · exact Or.inr ⟨p, List.mem_cons_of_mem _ hpmem, hpv, hkvp⟩
      · intro p hpmem hpv
        rcases List.mem_cons.mp hpmem with hp | hp
        · apply ih4
          rw [hp]
          exact upsert_key_mem st.1 (trimS q.1) (trimS q.2)
        · exact ih3 p hp hpv
      · intro k hk
        apply ih4
        exact upsert_keys_mono st.1 (trimS q.1) k (trimS q.2) hk
    · have hstep : loadMappingStep st q = st := by
        unfold loadMappingStep
        rw [if_neg hq]
      rw [hstep]
      rcases ih st with ⟨ih1, ih2, ih3, ih4⟩
      refine ⟨?_, ?_, ?_, ih4⟩
      · rw [ih1]
        simp [List.filter_cons, hq]
      · intro kv hkv
        rcases ih2 kv hkv with hin | ⟨p, hpmem, hpv, hkvp⟩
        · exact Or.inl hin
        · exact Or.inr ⟨p, List.mem_cons_of_mem _ hpmem, hpv, hkvp⟩
      · intro p hpmem hpv
        rcases List.mem_cons.mp hpmem with hp | hp
        · rw [hp] at hpv
          exact absurd hpv (by simpa using hq)
        · exact ih3 p hp hpv

/-- C9: loadTranslationMapping counts exactly the entries passing
validation, every retained replacement pair is the trimmed image of some
valid raw entry, every valid raw entry contributes its trimmed key to the
replacements Map, and invalid entries are dropped without error (the load
is total). -/
theorem c9_mapping_validation (m : List (String × String)) :
    (loadTranslationMapping m).2 = (m.filter validMappingPair).length ∧
    (∀ kv ∈ (loadTranslationMapping m).1,
      ∃ p ∈ m, validMappingPair p = true ∧ kv = (trimS p.1, trimS p.2)) ∧
    (∀ p ∈ m, validMappingPair p = true →
      trimS p.1 ∈ ((loadTranslationMapping m).1.map Prod.fst)) := by
  rcases loadMapping_fold_spec m ([], 0) with ⟨h1, h2, h3, _⟩
  refine ⟨by simpa using h1, ?_, h3⟩
  intro kv hkv
  rcases h2 kv hkv with hin | h
  · cases hin
  · exact h

/-- Witness for C9 at a concrete raw mapping: one valid entry is retained
trimmed, an empty-after-trim entry and an unchanged entry are dropped, and
the counter reflects only the valid one. -/
theorem c9_mapping_validation_witness :
    (loadTranslationMapping
      [("Hello World", "HW"), ("  ", "x"), ("same", "same")]).2 =
      ([("Hello World", "HW"), ("  ", "x"), ("same", "same")].filter
        validMappingPair).length ∧
    (loadTranslationMapping
      [("Hello World", "HW"), ("  ", "x"), ("same", "same")]).2 = 1 ∧
    "Hello World" ∈ ((loadTranslationMapping
      [("Hello World", "HW"), ("  ", "x"), ("same", "same")]).1.map Prod.fst) := by
  refine ⟨(c9_mapping_validation
    [("Hello World", "HW"), ("  ", "x"), ("same", "same")]).1, by decide, ?_⟩
  have h := (c9_mapping_validation
    [("Hello World", "HW"), ("  ", "x"), ("same", "same")]).2.2
    ("Hello World", "HW") (by decide) (by decide)
  have ht : trimS "Hello World" = "Hello World" := by decide
  rw [ht] at h
  exact h

/-! ### C3: replacement occurrence counting (TextReplacer.processFile) -/

/-- Literal match of the escaped key at the head of the content (the
regex-escaped pattern matches exactly the key text). -/
def startsWithL : List Char → List Char → Bool
  | [], _ => true
  | _ :: _, [] => false
  | a :: as, b :: bs => a == b && startsWithL as bs

/-- The exec loop of processFile: scan left to right, count a match and
resume past it (the first argument holds how many characters of the current
match are still to be skipped). -/
def scanCount (k : List Char) : Nat → List Char → Nat
  | _, [] => 0
  | 0, c :: rest =>
    if startsWithL k (c :: rest) then 1 + scanCount k (k.length - 1) rest
    else scanCount k 0 rest
  | s + 1, _ :: rest => scanCount k s rest

/-- Matches found by the global literal regex of createReplacementRegex:
leftmost matches, each scan resuming after the matched text. -/
def countMatches (k c : List Char) : Nat := scanCount k 0 c

/-- Auxiliary literal-substitution scan: every counted match is replaced by
a fixed text verbatim. This is what the JS replacement specializes to when
the replacement string carries no dollar character. -/
def scanReplace (k t : List Char) : Nat → List Char → List Char
  | _, [] => []
  | 0, c :: rest =>
    if startsWithL k (c :: rest) then t ++ scanReplace k t (k.length - 1) rest
    else c :: scanReplace k t 0 rest
  | s + 1, _ :: rest => scanReplace k t s rest

/-- Literal replacement of every leftmost non-overlapping match. -/
def replaceLiteral (k t c : List Char) : List Char := scanReplace k t 0 c

/-- ECMAScript GetSubstitution for the replacement string of
String.prototype.replace, specialized to a regex with no capture groups
(createReplacementRegex escapes the key, producing none): dollar-dollar
yields a dollar, dollar-ampersand the matched text, dollar-backtick the
part of the subject before the match, dollar-quote the part after it; any
other dollar sequence (including group references, which do not exist
here) stays literal. Char.ofNat 96 is the backtick, Char.ofNat 39 the
single quote. -/
def expandDollar (matched before after : List Char) : List Char → List Char
  | [] => []
  | c :: rest =>
    if c = '$' then
      match rest with
      | [] => ['$']
      | c2 :: rest2 =>
        if c2 = '$' then '$' :: expandDollar matched before after rest2
        else if c2 = '&' then matched ++ expandDollar matched before after rest2
        else if c2 = Char.ofNat 96 then
          before ++ expandDollar matched before after rest2
        else if c2 = Char.ofNat 39 then
          after ++ expandDollar matched before after rest2
        else '$' :: c2 :: expandDollar matched before after rest2
    else c :: expandDollar matched before after rest

/-- String.prototype.replace with the global literal regex: every counted
match (always exactly the key, since the pattern is the escaped key) is
replaced by the GetSubstitution expansion of the translated text against
the original subject string; pos tracks the absolute position inside orig,
the skip argument the remainder of the current match. -/
def scanReplaceDollar (k t orig : List Char) : Nat → Nat → List Char →
    List Char
  | _, _, [] => []
  | 0, pos, ch :: rest =>
    if startsWithL k (ch :: rest) then
      expandDollar k (orig.take pos) (orig.drop (pos + k.length)) t ++
        scanReplaceDollar k t orig (k.length - 1) (pos + 1) rest
    else ch :: scanReplaceDollar k t orig 0 (pos + 1) rest
  | s + 1, pos, _ :: rest => scanReplaceDollar k t orig s (pos + 1) rest

/-- The content after the replace call of processFile: JS replace with
dollar-pattern substitution in the replacement string. -/
def replaceMatches (k t c : List Char) : List Char :=
  scanReplaceDollar k t c 0 0 c

/-- The number of positions of c at which k occurs as an exact substring. -/
def substringCount (k : List Char) : List Char → Nat
  | [] => 0
  | c :: rest =>
    (if startsWithL k (c :: rest) then 1 else 0) + substringCount k rest

/-- No two occurrences of k inside c overlap each other. -/
def NoOverlap (k c : List Char) : Prop :=
  ∀ p < c.length, ∀ q < c.length, p < q →
    startsWithL k (c.drop p) = true → startsWithL k (c.drop q) = true →
    p + k.length ≤ q

instance (k c : List Char) : Decidable (NoOverlap k c) := by
  unfold NoOverlap
  infer_instance

/-- One entry of the changes array of a replacement report. -/
structure ChangeRec where
  original : List Char
  translated : List Char
  occurrences : Nat
deriving DecidableEq

/-- The body of the per-mapping-entry loop of TextReplacer.processFile
(current variant): skip empty or unchanged pairs, count the matches in the
current content, and on at least one match replace and record the change. -/
def processFileStep (st : List Char × Nat × List ChangeRec)
    (kv : List Char × List Char) : List Char × Nat × List ChangeRec :=
  if kv.1.isEmpty || kv.2.isEmpty || kv.1 == kv.2 then st
  else
    let n := countMatches kv.1 st.1
    if n = 0 then st
    else (replaceMatches kv.1 kv.2 st.1, st.2.1 + n,
      st.2.2 ++ [⟨kv.1, kv.2, n⟩])

/-- TextReplacer.processFile on one file content: fold the replacement map
through the per-entry loop, starting from the file content, zero
replacements and an empty changes list. -/
def processFileContent (mapping : List (List Char × List Char))
    (c : List Char) : List Char × Nat × List ChangeRec :=
  mapping.foldl processFileStep (c, 0, [])

theorem scanCount_skip (k : List Char) :
    ∀ (c : List Char) (s : Nat), scanCount k s c = scanCount k 0 (c.drop s) := by
  intro c
  induction c with
  | nil => intro s; cases s <;> rfl
  | cons ch rest ih =>
    intro s
    cases s with
    | zero => rfl
    | succ s' =>
      show scanCount k s' rest = _
      rw [ih s']
      rfl

theorem countMatches_cons (k : List Char) (ch : Char) (rest : List Char) :
    countMatches k (ch :: rest) =
      if startsWithL k (ch :: rest) then
        1 + countMatches k (rest.drop (k.length - 1))
      else countMatches k rest := by
  show scanCount k 0 (ch :: rest) = _
  by_cases h : startsWithL k (ch :: rest) = true
  · rw [if_pos h]
    show (if startsWithL k (ch :: rest) then 1 + scanCount k (k.length - 1) rest
      else scanCount k 0 rest) = _
    rw [if_pos h, scanCount_skip k rest (k.length - 1)]
    rfl
  · rw [if_neg h]
    show (if startsWithL k (ch :: rest) then 1 + scanCount k (k.length - 1) rest
      else scanCount k 0 rest) = _
    rw [if_neg h]
    rfl

theorem scanReplace_skip (k t : List Char) :
    ∀ (c : List Char) (s : Nat),
      scanReplace k t s c = scanReplace k t 0 (c.drop s) := by
  intro c
  induction c with
  | nil => intro s; cases s <;> rfl
  | cons ch rest ih =>
    intro s
    cases s with
    | zero => rfl
    | succ s' =>
      show scanReplace k t s' rest = _
      rw [ih s']
      rfl

theorem replaceLiteral_cons (k t : List Char) (ch : Char) (rest : List Char) :
    replaceLiteral k t (ch :: rest) =
      if startsWithL k (ch :: rest) then
        t ++ replaceLiteral k t (rest.drop (k.length - 1))
      else ch :: replaceLiteral k t rest := by
  show scanReplace k t 0 (ch :: rest) = _
  by_cases h : startsWithL k (ch :: rest) = true
  · rw [if_pos h]
    show (if startsWithL k (ch :: rest) then
        t ++ scanReplace k t (k.length - 1) rest
      else ch :: scanReplace k t 0 rest) = _
    rw [if_pos h, scanReplace_skip k t rest (k.length - 1)]
    rfl
  · rw [if_neg h]
    show (if startsWithL k (ch :: rest) then
        t ++ scanReplace k t (k.length - 1) rest
      else ch :: scanReplace k t 0 rest) = _
    rw [if_neg h]
    rfl

theorem expandDollar_no_dollar (matched before after : List Char) :
    ∀ t : List Char, '$' ∉ t → expandDollar matched before after t = t := by
  intro t
  induction t with
  | nil => intro _; rfl
  | cons c rest ih =>
    intro h
    have hc : ¬ c = '$' := by
      intro hh
      exact h (hh ▸ List.mem_cons_self _ _)
    have hr : '$' ∉ rest := fun hh => h (List.mem_cons_of_mem _ hh)
    cases rest with
    | nil =>
      show (if c = '$' then ['$']
        else c :: expandDollar matched before after []) = [c]
      rw [if_neg hc]
      rfl
    | cons c2 rest2 =>
      show (if c = '$' then
          (if c2 = '$' then '$' :: expandDollar matched before after rest2
           else if c2 = '&' then matched ++ expandDollar matched before after rest2
           else if c2 = Char.ofNat 96 then
             before ++ expandDollar matched before after rest2
           else if c2 = Char.ofNat 39 then
             after ++ expandDollar matched before after rest2
           else '$' :: c2 :: expandDollar matched before after rest2)
        else c :: expandDollar matched before after (c2 :: rest2)) =
        c :: c2 :: rest2
      rw [if_neg hc, ih hr]

theorem scanReplaceDollar_literal (k t orig : List Char) (hdol : '$' ∉ t) :
    ∀ (c : List Char) (s pos : Nat),
      scanReplaceDollar k t orig s pos c = scanReplace k t s c := by
  intro c
  induction c with
  | nil => intro s pos; cases s <;> rfl
  | cons ch rest ih =>
    intro s pos
    cases s with
    | zero =>
      show (if startsWithL k (ch :: rest) then
          expandDollar k (orig.take pos) (orig.drop (pos + k.length)) t ++
            scanReplaceDollar k t orig (k.length - 1) (pos + 1) rest
        else ch :: scanReplaceDollar k t orig 0 (pos + 1) rest) =
        (if startsWithL k (ch :: rest) then
          t ++ scanReplace k t (k.length - 1) rest
        else ch :: scanReplace k t 0 rest)
      by_cases hm : startsWithL k (ch :: rest) = true
      · rw [if_pos hm, if_pos hm, expandDollar_no_dollar _ _ _ t hdol,
          ih (k.length - 1) (pos + 1)]
      · rw [if_neg hm, if_neg hm, ih 0 (pos + 1)]
    | succ s2 => exact ih s2 (pos + 1)

theorem replaceMatches_eq_replaceLiteral (k t c : List Char)
    (hdol : '$' ∉ t) : replaceMatches k t c = replaceLiteral k t c :=
  scanReplaceDollar_literal k t c hdol c 0 0

theorem startsWithL_iff (k : List Char) :
    ∀ c, startsWithL k c = true ↔ k <+: c := by
  induction k with
  | nil =>
    intro c
    constructor
    · intro _
      exact ⟨c, rfl⟩
    · intro _
      rfl
  | cons a as ih =>
    intro c
    cases c with
    | nil =>
      constructor
      · intro h
        simp [startsWithL] at h
      · rintro ⟨u, hu⟩
        simp at hu
    | cons b bs =>
      constructor
      · intro h
        have h' : a = b ∧ startsWithL as bs = true := by
          simpa [startsWithL] using h
        rcases (ih bs).mp h'.2 with ⟨u, hu⟩
        exact ⟨u, by rw [List.cons_append, hu, h'.1]⟩
      · rintro ⟨u, hu⟩
        rw [List.cons_append] at hu
        injection hu with h1 h2
        show (a == b && startsWithL as bs) = true
        have h3 : startsWithL as bs = true := (ih bs).mpr ⟨u, h2⟩
        simp [h1, h3]

theorem startsWithL_nil_of_ne (k : List Char) (hk : k ≠ []) :
    startsWithL k [] = false := by
  cases k with
  | nil => exact absurd rfl hk
  | cons a as => rfl

/-- C3 counterexample: for the self-overlapping key "aa" in content "aaa"
the exact-substring count is 2 while processFile reports a single
occurrence; for key "ab" replaced by "a" in content "abb" the written
content is exactly "ab", one remaining occurrence of the key; and a
replacement value using the JS dollar-ampersand pattern re-inserts the
matched key. -/
theorem c3_counterexample :
    substringCount "aa".toList "aaa".toList = 2 ∧
    (processFileContent [("aa".toList, "b".toList)] "aaa".toList).2.2 =
      [⟨"aa".toList, "b".toList, 1⟩] ∧
    (processFileContent [("ab".toList, "a".toList)] "abb".toList).1 =
      "ab".toList ∧
    (processFileContent [("ab".toList, "x$&y".toList)] "ab".toList).1 =
      "xaby".toList := by decide

theorem substringCount_drop_of_no_match (k : List Char) :
    ∀ (m : Nat) (c : List Char),
      (∀ i < m, startsWithL k (c.drop i) = false) →
      substringCount k c = substringCount k (c.drop m) := by
  intro m
  induction m with
  | zero => intro c _; rfl
  | succ m ih =>
    intro c h
    cases c with
    | nil => cases m <;> rfl
    | cons ch rest =>
      have h0 : startsWithL k (ch :: rest) = false := by
        have := h 0 (Nat.succ_pos m)
        simpa using this
      have hrest : ∀ i < m, startsWithL k (rest.drop i) = false := by
        intro i hi
        have := h (i + 1) (by omega)
        simpa [List.drop_succ_cons] using this
      show (if startsWithL k (ch :: rest) then 1 else 0) + substringCount k rest = _
      rw [h0]
      simp only [Bool.false_eq_true, if_false, Nat.zero_add, List.drop_succ_cons]
      exact ih rest hrest

theorem noOverlap_drop (k c : List Char) (m : Nat) (h : NoOverlap k c) :
    NoOverlap k (c.drop m) := by
  intro p hp q hq hpq h1 h2
  rw [List.length_drop] at hp hq
  rw [List.drop_drop] at h1 h2
  have := h (m + p) (by omega) (m + q) (by omega) (by omega) h1 h2
  omega

theorem countMatches_eq_substringCount_aux (k : List Char) (hk : k ≠ []) :
    ∀ (n : Nat) (c : List Char), c.length ≤ n → NoOverlap k c →
      countMatches k c = substringCount k c := by
  have hkpos : 0 < k.length := List.length_pos.mpr hk
  intro n
  induction n with
  | zero =>
    intro c hc _
    have : c = [] := List.eq_nil_of_length_eq_zero (by omega)
    rw [this]
    rfl
  | succ n ih =>
    intro c hc hno
    cases c with
    | nil => rfl
    | cons ch rest =>
      rw [countMatches_cons]
      by_cases hm : startsWithL k (ch :: rest) = true
      · rw [if_pos hm]
        show _ = (if startsWithL k (ch :: rest) then 1 else 0) + substringCount k rest
        rw [hm]
        simp only [if_true]
        have hnomid : ∀ i < k.length - 1, startsWithL k (rest.drop i) = false := by
          intro i hi
          by_cases hbound : i + 1 < (ch :: rest).length
          · by_contra hcon
            rw [Bool.not_eq_false] at hcon
            have hdropeq : rest.drop i = (ch :: rest).drop (i + 1) := by
              rw [List.drop_succ_cons]
            rw [hdropeq] at hcon
            have := hno 0 (by simp) (i + 1) hbound (by omega) (by simpa using hm)
              hcon
            omega
          · have hlen : rest.length ≤ i := by
              simp only [List.length_cons] at hbound
              omega
            rw [List.drop_eq_nil_of_le hlen]
            exact startsWithL_nil_of_ne k hk
        have hstep1 : substringCount k rest =
            substringCount k (rest.drop (k.length - 1)) :=
          substringCount_drop_of_no_match k (k.length - 1) rest hnomid
        have hdropc : rest.drop (k.length - 1) = (ch :: rest).drop k.length := by
          cases k with
          | nil => exact absurd rfl hk
          | cons kh kt =>
            simp only [List.length_cons, Nat.add_sub_cancel,
              List.drop_succ_cons]
        have hno2 : NoOverlap k (rest.drop (k.length - 1)) := by
          rw [hdropc]
          exact noOverlap_drop k (ch :: rest) k.length hno
        have hlen2 : (rest.drop (k.length - 1)).length ≤ n := by
          rw [List.length_drop]
          simp only [List.length_cons] at hc
          omega
        rw [ih (rest.drop (k.length - 1)) hlen2 hno2, hstep1]
      · rw [if_neg hm]
        show _ = (if startsWithL k (ch :: rest) then 1 else 0) + substringCount k rest
        rw [Bool.not_eq_true] at hm
        rw [hm]
        simp only [Bool.false_eq_true, if_false, Nat.zero_add]
        have hno1 : NoOverlap k rest := by
          have hres : rest = (ch :: rest).drop 1 := rfl
          rw [hres]
          exact noOverlap_drop k (ch :: rest) 1 hno
        have hrlen : rest.length ≤ n := by
          simp only [List.length_cons] at hc
          omega
        exact ih rest hrlen hno1

theorem countMatches_eq_substringCount (k c : List Char) (hk : k ≠ [])
    (hno : NoOverlap k c) : countMatches k c = substringCount k c :=
  countMatches_eq_substringCount_aux k hk c.length c le_rfl hno

theorem sub_cons_split (k : List Char) (a : Char) (l : List Char) :
    k <:+: (a :: l) ↔ k <+: (a :: l) ∨ k <:+: l := by
  constructor
  · rintro ⟨s, u, h⟩
    cases s with
    | nil =>
      rw [List.nil_append] at h
      exact Or.inl ⟨u, h⟩
    | cons x s' =>
      rw [List.cons_append, List.cons_append] at h
      injection h with h1 h2
      exact Or.inr ⟨s', u, by rw [← h2]⟩
  · rintro (⟨u, hu⟩ | ⟨s, u, h⟩)
    · exact ⟨[], u, by rw [List.nil_append, hu]⟩
    · exact ⟨a :: s, u, by rw [List.cons_append, List.cons_append, h]⟩

theorem sub_append_elim (k t R : List Char) (hk : k ≠ [])
    (hdisj : ∀ ch ∈ t, ch ∉ k) (h : k <:+: t ++ R) : k <:+: R := by
  induction t with
  | nil => simpa using h
  | cons x t' ih =>
    rw [List.cons_append] at h
    rcases (sub_cons_split k x (t' ++ R)).mp h with hpre | hsub
    · exfalso
      cases k with
      | nil => exact hk rfl
      | cons kh kt =>
        rcases hpre with ⟨u, hu⟩
        rw [List.cons_append] at hu
        injection hu with h1 _
        have : x ∉ kh :: kt := hdisj x (List.mem_cons_self _ _)
        exact this (h1 ▸ List.mem_cons_self _ _)
    · exact ih (fun ch hch => hdisj ch (List.mem_cons_of_mem _ hch)) hsub

theorem replace_pre_transfer (k t : List Char) (ht : t ≠ []) :
    ∀ (n : Nat) (c s : List Char), c.length ≤ n → (∀ ch ∈ s, ch ∉ t) →
      s <+: replaceLiteral k t c → s <+: c := by
  intro n
  induction n with
  | zero =>
    intro c s hc _ hpre
    have hcn : c = [] := List.eq_nil_of_length_eq_zero (by omega)
    rw [hcn] at hpre ⊢
    exact hpre
  | succ n ih =>
    intro c s hc hs hpre
    cases c with
    | nil => exact hpre
    | cons ch rest =>
      rw [replaceLiteral_cons] at hpre
      by_cases hm : startsWithL k (ch :: rest) = true
      · rw [if_pos hm] at hpre
        cases s with
        | nil => exact ⟨ch :: rest, rfl⟩
        | cons x s' =>
          exfalso
          cases t with
          | nil => exact ht rfl
          | cons y t' =>
            rcases hpre with ⟨u, hu⟩
            rw [List.cons_append, List.cons_append] at hu
            injection hu with h1 _
            have : x ∉ y :: t' := hs x (List.mem_cons_self _ _)
            exact this (h1 ▸ List.mem_cons_self _ _)
      · rw [if_neg hm] at hpre
        cases s with
        | nil => exact ⟨ch :: rest, rfl⟩
        | cons x s' =>
          rcases hpre with ⟨u, hu⟩
          rw [List.cons_append] at hu
          injection hu with h1 h2
          have hs' : s' <+: replaceLiteral k t rest := ⟨u, h2⟩
          have hrlen : rest.length ≤ n := by
            simp only [List.length_cons] at hc
            omega
          have : s' <+: rest := ih rest s' hrlen
            (fun ch2 hch2 => hs ch2 (List.mem_cons_of_mem _ hch2)) hs'
          rcases this with ⟨u', hu'⟩
          exact ⟨u', by rw [List.cons_append, hu', h1]⟩

theorem replace_no_sub_aux (k t : List Char) (hk : k ≠ []) (ht : t ≠ [])
    (hdisj : ∀ ch ∈ t, ch ∉ k) :
    ∀ (n : Nat) (c : List Char), c.length ≤ n →
      ¬ (k <:+: replaceLiteral k t c) := by
  intro n
  induction n with
  | zero =>
    intro c hc h
    have hcn : c = [] := List.eq_nil_of_length_eq_zero (by omega)
    rw [hcn] at h
    rcases h with ⟨s, u, hsu⟩
    rcases List.append_eq_nil.mp hsu with ⟨hsk, _⟩
    rcases List.append_eq_nil.mp hsk with ⟨_, hknil⟩
    exact hk hknil
  | succ n ih =>
    intro c hc h
    cases c with
    | nil =>
      rcases h with ⟨s, u, hsu⟩
      rcases List.append_eq_nil.mp hsu with ⟨hsk, _⟩
      rcases List.append_eq_nil.mp hsk with ⟨_, hknil⟩
      exact hk hknil
    | cons ch rest =>
      rw [replaceLiteral_cons] at h
      by_cases hm : startsWithL k (ch :: rest) = true
      · rw [if_pos hm] at h
        have h2 := sub_append_elim k t _ hk hdisj h
        exact ih (rest.drop (k.length - 1))
          (by
            rw [List.length_drop]
            simp only [List.length_cons] at hc
            omega) h2
      · rw [if_neg hm] at h
        rcases (sub_cons_split k ch _).mp h with hpre | hsub
        · cases k with
          | nil => exact hk rfl
          | cons kh kt =>
            rcases hpre with ⟨u, hu⟩
            rw [List.cons_append] at hu
            injection hu with h1 h2
            have hktpre : kt <+: replaceLiteral (kh :: kt) t rest := ⟨u, h2⟩
            cases kt with
            | nil =>
              apply hm
              rw [startsWithL_iff]
              exact ⟨rest, by rw [List.cons_append, List.nil_append, h1]⟩
            | cons k2 kt' =>
              have hktt : ∀ x ∈ k2 :: kt', x ∉ t := by
                intro x hx hxt
                exact hdisj x hxt (List.mem_cons_of_mem _ hx)
              have hrlen : rest.length ≤ n := by
                simp only [List.length_cons] at hc
                omega
              have : (k2 :: kt') <+: rest :=
                replace_pre_transfer (kh :: k2 :: kt') t ht n rest (k2 :: kt')
                  hrlen hktt hktpre
              apply hm
              rw [startsWithL_iff]
              rcases this with ⟨u', hu'⟩
              exact ⟨u', by rw [List.cons_append, hu', h1]⟩
        · refine ih rest ?_ hsub
          simp only [List.length_cons] at hc
          omega

theorem replace_no_sub (k t c : List Char) (hk : k ≠ []) (ht : t ≠ [])
    (hdisj : ∀ ch ∈ t, ch ∉ k) : ¬ (k <:+: replaceLiteral k t c) :=
  replace_no_sub_aux k t hk ht hdisj c.length c le_rfl

theorem substringCount_zero_no_sub (k : List Char) (hk : k ≠ []) :
    ∀ c, substringCount k c = 0 → ¬ (k <:+: c) := by
  intro c
  induction c with
  | nil =>
    intro _ h
    rcases h with ⟨s, u, hsu⟩
    rcases List.append_eq_nil.mp hsu with ⟨hsk, _⟩
    rcases List.append_eq_nil.mp hsk with ⟨_, hknil⟩
    exact hk hknil
  | cons ch rest ih =>
    intro h0 h
    have hm : startsWithL k (ch :: rest) = false := by
      cases hcase : startsWithL k (ch :: rest) with
      | false => rfl
      | true =>
        exfalso
        rw [show substringCount k (ch :: rest) =
            (if startsWithL k (ch :: rest) then 1 else 0) +
              substringCount k rest from rfl, hcase] at h0
        simp at h0
    have hrest0 : substringCount k rest = 0 := by
      rw [show substringCount k (ch :: rest) =
          (if startsWithL k (ch :: rest) then 1 else 0) +
            substringCount k rest from rfl, hm] at h0
      simpa using h0
    rcases (sub_cons_split k ch rest).mp h with hpre | hsub
    · rw [← startsWithL_iff] at hpre
      rw [hm] at hpre
      cases hpre
    · exact ih hrest0 hsub

/-- C3 amended: for a non-empty key whose occurrences in the content cannot
overlap, the per-key step of processFile reports occurrences equal to the
exact-substring count (and reports the key only when that count is
positive); and when the translated value contains no dollar character (so
no JS substitution pattern fires) and shares no character with the key,
the written-back content contains zero occurrences of the key. -/
theorem c3_per_key_replacement (k t c : List Char) (hk : k ≠ []) (ht : t ≠ [])
    (hno : NoOverlap k c) (hdol : '$' ∉ t) (hdisj : ∀ ch ∈ t, ch ∉ k) :
    (processFileContent [(k, t)] c).2.2 =
      (if substringCount k c = 0 then []
       else [⟨k, t, substringCount k c⟩]) ∧
    ¬ (k <:+: (processFileContent [(k, t)] c).1) := by
  have hkt : k ≠ t := by
    intro hkeq
    cases t with
    | nil => exact ht rfl
    | cons th tt =>
      have h1 : th ∉ k := hdisj th (List.mem_cons_self _ _)
      rw [hkeq] at h1
      exact h1 (List.mem_cons_self _ _)
  have hguardn : ¬ ((k.isEmpty || t.isEmpty || k == t) = true) := by
    cases k with
    | nil => exact absurd rfl hk
    | cons kh kt =>
      cases t with
      | nil => exact absurd rfl ht
      | cons th tt =>
        simp only [List.isEmpty_cons, Bool.false_or]
        simpa using hkt
  have hcount := countMatches_eq_substringCount k c hk hno
  have hres : processFileContent [(k, t)] c =
      (if countMatches k c = 0 then ((c, 0, []) : List Char × Nat × List ChangeRec)
       else (replaceMatches k t c, 0 + countMatches k c,
         [] ++ [⟨k, t, countMatches k c⟩])) := by
    show processFileStep (c, 0, []) (k, t) = _
    unfold processFileStep
    rw [if_neg hguardn]
  rw [hres]
  by_cases h0 : countMatches k c = 0
  · rw [if_pos h0]
    have h0s : substringCount k c = 0 := hcount ▸ h0
    constructor
    · rw [if_pos h0s]
    · exact substringCount_zero_no_sub k hk c h0s
  · rw [if_neg h0]
    have h0s : substringCount k c ≠ 0 := fun hh => h0 (hcount ▸ hh)
    constructor
    · rw [if_neg h0s]
      simp only [List.nil_append, hcount]
    · show ¬ (k <:+: replaceMatches k t c)
      rw [replaceMatches_eq_replaceLiteral k t c hdol]
      exact replace_no_sub k t c hk ht hdisj

/-- Witness for C3 at the spec's own scenario: the mapping of Hello World to
its translation applied to a small div yields one reported occurrence and no
remaining occurrence of the key. -/
theorem c3_per_key_replacement_witness :
    ("Hello World".toList ≠ [] ∧ "你好世界".toList ≠ [] ∧
      NoOverlap "Hello World".toList "<div>Hello World</div>".toList ∧
      '$' ∉ "你好世界".toList ∧
      (∀ ch ∈ "你好世界".toList, ch ∉ "Hello World".toList)) ∧
    ((processFileContent [("Hello World".toList, "你好世界".toList)]
        "<div>Hello World</div>".toList).2.2 =
      (if substringCount "Hello World".toList "<div>Hello World</div>".toList = 0
       then []
       else [⟨"Hello World".toList, "你好世界".toList,
         substringCount "Hello World".toList "<div>Hello World</div>".toList⟩]) ∧
    ¬ ("Hello World".toList <:+:
      (processFileContent [("Hello World".toList, "你好世界".toList)]
        "<div>Hello World</div>".toList).1)) :=
  ⟨⟨by decide, by decide, by decide, by decide, by decide⟩,
    c3_per_key_replacement "Hello World".toList "你好世界".toList
      "<div>Hello World</div>".toList (by decide) (by decide) (by decide)
      (by decide) (by decide)⟩

/-! ### C8: extractor output determinism, sortedness and non-empty texts -/

/-- A raw candidate pushed by TextExtractor.addText (already trimmed). -/
structure RawCandidate where
  text : String
  file : String
  context : String
deriving DecidableEq

/-- TextExtractor.addText: trim the text, push it only when non-empty. -/
def addText (text file context : String) : Option RawCandidate :=
  if trimS text = "" then none else some ⟨trimS text, file, context⟩

/-- The raw extracted list built from the harvested candidate triples of
text, file and context (a pure function of the scanned tree). -/
def extractedRawList (cands : List (String × String × String)) :
    List RawCandidate :=
  cands.filterMap (fun c => addText c.1 c.2.1 c.2.2)

/-- One entry of the deduplicated output; collapsed records whether the
single file field was converted into a files array by a duplicate. -/
structure UniqueEntry where
  text : String
  context : String
  files : List String
  collapsed : Bool
deriving DecidableEq

/-- The duplicate branch of removeDuplicates: convert to a files array and
append the new file if it is not already present. -/
def mergeFileRef (u : UniqueEntry) (f : String) : UniqueEntry :=
  { u with
    collapsed := true
    files := if u.files.contains f then u.files else u.files ++ [f] }

/-- Mutate the first entry with the given text and context, as found by
Array.prototype.find on the unique list. -/
def updateFirstEntry : List UniqueEntry → String → String → String →
    List UniqueEntry
  | [], _, _, _ => []
  | u :: rest, t, c, f =>
    if u.text = t ∧ u.context = c then mergeFileRef u f :: rest
    else u :: updateFirstEntry rest t c f

/-- One step of the removeDuplicates fold: the seen set is keyed by the
concatenation of text, a colon and context; a fresh key appends a new entry
while a seen key merges the file reference into the first matching entry. -/
def dedupStep (st : List String × List UniqueEntry) (it : RawCandidate) :
    List String × List UniqueEntry :=
  if st.1.contains (it.text ++ ":" ++ it.context) then
    (st.1, updateFirstEntry st.2 it.text it.context it.file)
  else
    (st.1 ++ [it.text ++ ":" ++ it.context],
      st.2 ++ [⟨it.text, it.context, [it.file], false⟩])

/-- The deduplication pass of TextExtractor.removeDuplicates. -/
def dedupFold (items : List RawCandidate) : List UniqueEntry :=
  (items.foldl dedupStep ([], [])).2

/-- The comparator order used by the final sort: localeCompare not greater
(the locale comparison itself is a parameter cmp of the model). -/
def entryLE (cmp : String → String → Ordering) (a b : UniqueEntry) : Prop :=
  cmp a.text b.text ≠ Ordering.gt

instance (cmp : String → String → Ordering) : DecidableRel (entryLE cmp) :=
  fun a b => inferInstanceAs (Decidable (cmp a.text b.text ≠ Ordering.gt))

/-- TextExtractor.removeDuplicates: deduplicate, then sort by the locale
comparison on text (a stable sort, modelled by insertion sort). -/
def removeDuplicates (cmp : String → String → Ordering)
    (items : List RawCandidate) : List UniqueEntry :=
  List.insertionSort (entryLE cmp) (dedupFold items)

/-- The record written to extracted-text.json by TextExtractor.extractTexts:
metadata (with the extraction timestamp) plus the sorted unique texts. -/
structure ExtractionOutput where
  sourceDir : String
  extractedAt : String
  filesProcessed : Nat
  textsFound : Nat
  texts : List UniqueEntry
deriving DecidableEq

/-- TextExtractor.extractTexts: assemble the output artifact from the
harvested candidates, stamping the current time into extractedAt. -/
def extractTextsOutput (cmp : String → String → Ordering)
    (sourceDir extractedAt : String) (filesProcessed : Nat)
    (cands : List (String × String × String)) : ExtractionOutput :=
  let uniq := removeDuplicates cmp (extractedRawList cands)
  { sourceDir := sourceDir
    extractedAt := extractedAt
    filesProcessed := filesProcessed
    textsFound := uniq.length
    texts := uniq }

theorem trimL_idem (cs : List Char) : trimL (trimL cs) = trimL cs := by
  unfold trimL
  have hYd : ((cs.dropWhile jsWS).rdropWhile jsWS).dropWhile jsWS =
      (cs.dropWhile jsWS).rdropWhile jsWS := by
    cases hY : (cs.dropWhile jsWS).rdropWhile jsWS with
    | nil => rfl
    | cons y Y' =>
      rcases ( List.rdropWhile_prefix jsWS (cs.dropWhile jsWS)) with ⟨u, hu⟩
      rw [hY, List.cons_append] at hu
      have hX : cs.dropWhile jsWS = y :: (Y' ++ u) := hu.symm
      have hne : cs.dropWhile jsWS ≠ [] := by
        rw [hX]
        exact List.cons_ne_nil _ _
      have hh := List.head_dropWhile_not jsWS cs hne
      have hhead : (cs.dropWhile jsWS).head hne = y := by
        simp [hX]
      rw [hhead] at hh
      rw [List.dropWhile_cons, hh]
      simp
  rw [hYd, List.rdropWhile_idempotent]

theorem trimS_idem (s : String) : trimS (trimS s) = trimS s := by
  unfold trimS
  rw [show (String.mk (trimL s.toList)).toList = trimL s.toList from rfl,
    trimL_idem]

theorem updateFirstEntry_texts (l : List UniqueEntry) (t c f : String)
    (P : String → Prop) (h : ∀ u ∈ l, P u.text) :
    ∀ u ∈ updateFirstEntry l t c f, P u.text := by
  induction l with
  | nil => intro u hu; cases hu
  | cons v rest ih =>
    intro u hu
    unfold updateFirstEntry at hu
    split at hu
    · rcases List.mem_cons.mp hu with h1 | h1
      · rw [h1]
        exact h v (List.mem_cons_self _ _)
      · exact h u (List.mem_cons_of_mem _ h1)
    · rcases List.mem_cons.mp hu with h1 | h1
      · rw [h1]
        exact h v (List.mem_cons_self _ _)
      · exact ih (fun w hw => h w (List.mem_cons_of_mem _ hw)) u h1

theorem dedupFold_texts (items : List RawCandidate)
    (P : String → Prop) (hitems : ∀ it ∈ items, P it.text) :
    ∀ st : List String × List UniqueEntry, (∀ u ∈ st.2, P u.text) →
      ∀ u ∈ (items.foldl dedupStep st).2, P u.text := by
  induction items with
  | nil => intro st hst u hu; exact hst u hu
  | cons it rest ih =>
    intro st hst u hu
    rw [List.foldl_cons] at hu
    refine ih (fun w hw => hitems w (List.mem_cons_of_mem _ hw))
      (dedupStep st it) ?_ u hu
    intro w hw
    unfold dedupStep at hw
    split at hw
    · exact updateFirstEntry_texts st.2 it.text it.context it.file P hst w hw
    · rcases List.mem_append.mp hw with h1 | h1
      · exact hst w h1
      · rw [List.mem_singleton.mp h1]
        exact hitems it (List.mem_cons_self _ _)

/-- C8 counterexample to byte-identical outputs: extractTexts stamps
extractedAt with the current time, so two runs on the same unchanged input
at different instants write different artifacts. -/
theorem c8_counterexample :
    extractTextsOutput (fun _ _ => Ordering.lt) "src" "2024-12-20T00:00:00Z" 1
        [("Hello World", "App.vue", "template")] ≠
      extractTextsOutput (fun _ _ => Ordering.lt) "src" "2024-12-20T00:00:01Z" 1
        [("Hello World", "App.vue", "template")] := by decide

/-- C8 amended: two extractor runs over the same unchanged candidates agree
on everything except the extractedAt timestamp; the output entries are
sorted by the locale comparator; and every entry's text is non-empty and
fixed by trimming (hence non-empty after trimming). -/
theorem c8_extractor_output (cmp : String → String → Ordering)
    (htot : ∀ a b : String, cmp a b ≠ Ordering.gt ∨ cmp b a ≠ Ordering.gt)
    (htrans : ∀ a b c : String, cmp a b ≠ Ordering.gt →
      cmp b c ≠ Ordering.gt → cmp a c ≠ Ordering.gt)
    (sd t1 t2 : String) (fp : Nat)
    (cands : List (String × String × String)) :
    extractTextsOutput cmp sd t1 fp cands =
      { extractTextsOutput cmp sd t2 fp cands with extractedAt := t1 } ∧
    List.Sorted (entryLE cmp) ((extractTextsOutput cmp sd t1 fp cands).texts) ∧
    (∀ u ∈ (extractTextsOutput cmp sd t1 fp cands).texts,
      u.text ≠ "" ∧ trimS u.text = u.text) := by
  refine ⟨rfl, ?_, ?_⟩
  · haveI : IsTotal UniqueEntry (entryLE cmp) :=
      ⟨fun a b => htot a.text b.text⟩
    haveI : IsTrans UniqueEntry (entryLE cmp) :=
      ⟨fun a b c => htrans a.text b.text c.text⟩
    exact List.sorted_insertionSort (entryLE cmp) (dedupFold
      (extractedRawList cands))
  · intro u hu
    have hperm := List.perm_insertionSort (entryLE cmp)
      (dedupFold (extractedRawList cands))
    have hu2 : u ∈ dedupFold (extractedRawList cands) := hperm.mem_iff.mp hu
    have hraw : ∀ it ∈ extractedRawList cands,
        it.text ≠ "" ∧ trimS it.text = it.text := by
      intro it hit
      rcases List.mem_filterMap.mp hit with ⟨c, _, hc⟩
      unfold addText at hc
      split at hc
      · cases hc
      · rename_i hne
        injection hc with hc2
        constructor
        · rw [← hc2]
          exact hne
        · rw [← hc2]
          show trimS (trimS c.1) = trimS c.1
          exact trimS_idem c.1
    exact dedupFold_texts (extractedRawList cands)
      (fun s => s ≠ "" ∧ trimS s = s) hraw ([], [])
      (fun w hw => absurd hw (List.not_mem_nil w)) u hu2

/-- Witness for C8 with the trivial always-lt comparator at a concrete
candidate list. -/
theorem c8_extractor_output_witness :
    extractTextsOutput (fun _ _ => Ordering.lt) "src" "T1" 1
        [("Hello World", "App.vue", "template"), ("  ", "App.vue", "template")] =
      { extractTextsOutput (fun _ _ => Ordering.lt) "src" "T2" 1
          [("Hello World", "App.vue", "template"), ("  ", "App.vue", "template")]
        with extractedAt := "T1" } :=
  (c8_extractor_output (fun _ _ => Ordering.lt)
    (fun _ _ => Or.inl (fun h => Ordering.noConfusion h))
    (fun _ _ _ _ _ h => Ordering.noConfusion h)
    "src" "T1" "T2" 1
    [("Hello World", "App.vue", "template"), ("  ", "App.vue", "template")]).1
